import Mathlib

/-
Verification of the davidgnome terminal assistant's command-safety pipeline.

The Python source is shallowly embedded over `List Char`:
  * `classify_command` mirrors `CommandClassifier.classify_command` (src/main.py),
  * `extract_commands` mirrors `CommandExtractor.extract_commands` (src/main.py),
  * `handle_command_execution` / `execute_command` mirror `GumCommandInterface`
    with user interaction and the subprocess modelled as oracle inputs,
  * `get_backend` mirrors `config.get_backend` with the file system and the
    JSON parser modelled as an explicit input,
  * `gpt_full_prompt` / `claude_full_prompt` / `ollama_full_prompt` mirror the
    `query` prompt construction of the three backend modules.
-/

/-! ### Basic string helpers (Python `str` operations over `List Char`) -/

/-- The backtick character (written via its code point to keep it out of the
source text). -/
def btChar : Char := Char.ofNat 96

/-- Boolean test that `n` is a prefix of `h` (Python `str.startswith`). -/
def pfxOf : List Char → List Char → Bool
  | [], _ => true
  | _ :: _, [] => false
  | a :: as, b :: bs => a == b && pfxOf as bs

/-- Boolean test that `needle` occurs as a contiguous substring of `hay`
(Python `needle in hay`). -/
def hasSub : List Char → List Char → Bool
  | [], needle => needle.isEmpty
  | s@(_ :: t), needle => pfxOf needle s || hasSub t needle

/-- Python whitespace test for `str.strip`. -/
def isWs (c : Char) : Bool := c == ' ' || c == '\t' || c == '\n' || c == '\r'

/-- Drop trailing characters satisfying `p`. -/
def dropTrail (p : Char → Bool) (s : List Char) : List Char :=
  ((s.reverse).dropWhile p).reverse

/-- Python `str.strip()`: drop leading and trailing whitespace. -/
def pyStrip (s : List Char) : List Char := dropTrail isWs (s.dropWhile isWs)

/-- Python `str.split('\n')`. -/
def splitNl : List Char → List (List Char)
  | [] => [[]]
  | c :: cs =>
    if c = '\n' then [] :: splitNl cs
    else
      match splitNl cs with
      | l :: ls => (c :: l) :: ls
      | [] => [[c]]

/-- Concatenation of a list of lists (the repeated `commands.append` loop over
the lines of each code block). -/
def catl : List (List (List Char)) → List (List Char)
  | [] => []
  | x :: xs => x ++ catl xs

/-! ### CommandClassifier (src/main.py lines 18-84) -/

/-- Source list `CommandClassifier.SAFE_COMMANDS`. -/
def SAFE_COMMANDS : List (List Char) :=
  (["ls", "cd", "cat", "pwd", "echo", "which", "whereis", "man", "help",
    "grep", "find", "head", "tail", "less", "more", "wc", "sort", "uniq",
    "date", "cal", "whoami", "id", "groups", "history", "alias", "type",
    "file", "stat", "du", "df", "free", "uptime", "ps", "top", "htop",
    "git status", "git log", "git diff", "git show", "git branch"]).map String.toList

/-- Source list `CommandClassifier.SUDO_COMMANDS`. -/
def SUDO_COMMANDS : List (List Char) :=
  (["sudo", "su", "passwd", "usermod", "groupmod", "chown", "chmod",
    "mount", "umount", "systemctl", "service", "apt", "yum", "dnf",
    "pacman", "snap", "pip install", "npm install", "gem install"]).map String.toList

/-- Source list `CommandClassifier.DANGEROUS_COMMANDS` (the two fork-bomb idioms contain
literal curly braces, written here via their code-point escapes). -/
def DANGEROUS_COMMANDS : List (List Char) :=
  (["rm -rf", "dd", "mkfs", "fdisk", "parted", "shred", "wipefs",
    ":()\x7b:|:&\x7d;:", ":()\x7b :|:& \x7d;:", "fork()", "while true",
    "> /dev/", "truncate", ">/dev/sda", ">/dev/sd"]).map String.toList

/-- Source list `CommandClassifier.FILESYSTEM_DESTRUCTIVE`. -/
def FILESYSTEM_DESTRUCTIVE : List (List Char) :=
  (["rm", "rmdir", "mv", "cp", "ln", "unlink"]).map String.toList

/-- The protected-path substrings checked inside the filesystem-destructive
branch of `classify_command` (source list
`["/", "/home", "/etc", "/usr", "/var", "/boot"]`). -/
def PROTECTED_PATHS : List (List Char) :=
  (["/", "/home", "/etc", "/usr", "/var", "/boot"]).map String.toList

/-- Python `cmd.lower().strip()` as computed at the top of `classify_command`. -/
def lowerStrip (cmd : List Char) : List Char := pyStrip (cmd.map Char.toLower)

/-- Function `CommandClassifier.classify_command` (src/main.py lines 52-84). -/
def classify_command (cmd : List Char) : String :=
  let cmd_lower := lowerStrip cmd
  if DANGEROUS_COMMANDS.any (fun danger => hasSub cmd_lower danger) then "dangerous"
  else if FILESYSTEM_DESTRUCTIVE.any (fun fs_cmd => pfxOf fs_cmd cmd_lower) then
    if PROTECTED_PATHS.any (fun path => hasSub cmd_lower path) then "dangerous"
    else "sudo"
  else if SUDO_COMMANDS.any (fun sudo_cmd => pfxOf sudo_cmd cmd_lower) then "sudo"
  else if SAFE_COMMANDS.any (fun safe_cmd => pfxOf safe_cmd cmd_lower) then "safe"
  else "unknown"

/-! ### CommandExtractor (src/main.py lines 86-128)

The two regular expressions of `extract_commands` are embedded as explicit
left-to-right scanners with Python `re.findall` semantics (leftmost,
non-overlapping matches).

Fenced blocks: the pattern is three backticks, an optional language tag from
the alternation `bash|sh|shell`, a newline, then a lazy body up to the next
three backticks.  At a given position the opening matches for exactly one of
the four tag alternatives (they are mutually exclusive because of the
mandatory newline); if no closing triple backtick follows, the whole match at
that position fails and scanning resumes one character later. -/

/-- Triple backtick marker. -/
def tripleBT : List Char := "```".toList

/-- Attempt to match the opening of a fenced block at the current position;
returns the remaining text right after the newline on success. -/
def matchOpen (s : List Char) : Option (List Char) :=
  if pfxOf ("```bash\n".toList) s then some (s.drop 8)
  else if pfxOf ("```sh\n".toList) s then some (s.drop 6)
  else if pfxOf ("```shell\n".toList) s then some (s.drop 9)
  else if pfxOf ("```\n".toList) s then some (s.drop 4)
  else none

/-- Scan for the closing triple backtick (the lazy `(.*?)` of the block
pattern): returns the body up to the first triple backtick together with the
text after that marker. -/
def findClose : List Char → Option (List Char × List Char)
  | [] => none
  | c :: cs =>
    if pfxOf tripleBT (c :: cs) then some ([], (c :: cs).drop 3)
    else
      match findClose cs with
      | some (b, r) => some (c :: b, r)
      | none => none

/-- Fueled scanner for all fenced-block bodies, left to right and
non-overlapping; the fuel is an upper bound on the number of scan positions. -/
def scanBlocksF : Nat → List Char → List (List Char)
  | 0, _ => []
  | _ + 1, [] => []
  | fuel + 1, c :: cs =>
    match matchOpen (c :: cs) with
    | some rest =>
      match findClose rest with
      | some (b, r2) => b :: scanBlocksF fuel r2
      | none => scanBlocksF fuel cs
    | none => scanBlocksF fuel cs

/-- All fenced-block bodies of the text, in document order
(`re.findall` for the block pattern). -/
def scanBlocks (s : List Char) : List (List Char) := scanBlocksF s.length s

/-- One-pass scanner for the inline pattern (a backtick, one or more
characters that are neither backtick nor newline, then a backtick).  The
state is `none` outside a span and `some acc` inside a span whose content so
far is `acc.reverse`; this reproduces `re.findall`'s leftmost non-overlapping
matches because a failed span attempt (empty content or newline) can be
resumed from the character that caused the failure. -/
def scanInlineAux : Option (List Char) → List Char → List (List Char)
  | _, [] => []
  | none, c :: cs =>
    if c = btChar then scanInlineAux (some []) cs else scanInlineAux none cs
  | some acc, c :: cs =>
    if c = btChar then
      match acc with
      | [] => scanInlineAux (some []) cs
      | _ :: _ => acc.reverse :: scanInlineAux none cs
    else if c = '\n' then scanInlineAux none cs
    else scanInlineAux (some (c :: acc)) cs

/-- All inline single-backtick span contents of the text, in document order
(`re.findall` for the inline pattern). -/
def scanInline (s : List Char) : List (List Char) := scanInlineAux none s

/-- The per-line filter of the block loop: keep a (stripped) line when it is
non-empty and does not start with '#'. -/
def goodLine (line : List Char) : Bool := !line.isEmpty && !pfxOf ("#".toList) line

/-- The body of the `for block in code_blocks` loop: strip the block, split
into lines, strip each line, keep non-empty non-comment lines in order. -/
def processBlock (block : List Char) : List (List Char) :=
  ((splitNl (pyStrip block)).map pyStrip).filter goodLine

/-- The inline allow-list of command-name prefixes. -/
def INLINE_ALLOW : List (List Char) :=
  (["ls", "cd", "cat", "grep", "find", "mkdir", "rm", "cp", "mv", "sudo", "touch"]).map
    String.toList

/-- The body of the `for cmd in inline_commands` loop: strip the span and keep
it when it contains a space and starts with an allow-listed prefix. -/
def inlineRule (cmd : List Char) : Option (List Char) :=
  let c := pyStrip cmd
  if c.contains ' ' && INLINE_ALLOW.any (fun p => pfxOf p c) then some c else none

/-- Function `CommandExtractor.extract_commands` (src/main.py lines 94-128): fenced
block lines first (in document order), then qualifying inline spans. -/
def extract_commands (text : List Char) : List (List Char) :=
  catl ((scanBlocks text).map processBlock) ++ (scanInline text).filterMap inlineRule

/-- The shape shared by every command returned by `extract_commands`: already
stripped, non-empty, not a comment, single-line, and free of triple
backticks. -/
def cleanCmd (c : List Char) : Prop :=
  pyStrip c = c ∧ c ≠ [] ∧ c.head? ≠ some '#' ∧ '\n' ∉ c ∧ hasSub c tripleBT = false

/-! ### The fenced round-trip (claim C3) -/

/-- Re-wrapping a command in a bash fenced block, as in the round-trip
property. -/
def wrapBash (c : List Char) : List Char :=
  "```bash\n".toList ++ c ++ "\n```".toList

/-! ### Configuration (src/config.py)

`get_backend` reads `CONFIG_PATH`.  The state of that file and the behaviour
of `open`/`json.load` on it are modelled as an explicit input: the file is
absent, unreadable (`open` raises `OSError`), or present with content that the
JSON parser rejects (`json.load` raises `JSONDecodeError`), parses to a
non-object (`.get` raises `AttributeError`), or parses to a string-valued
object (the shape `set_backend` writes). -/

inductive ConfigContent where
  | malformed
  | jsonNonObj
  | jsonObj (entries : List (String × String))
deriving DecidableEq

inductive ConfigFile where
  | absent
  | unreadable
  | present (content : ConfigContent)
deriving DecidableEq

/-- Outcome of a Python call: a value, or an uncaught exception. -/
inductive PyResult (α : Type) where
  | ok (a : α)
  | raised (exc : String)
deriving DecidableEq

/-- Whether a Python call returned normally. -/
def pyOk {α : Type} : PyResult α → Bool
  | .ok _ => true
  | .raised _ => false

/-- Python `dict.get(key, default)` on a string-valued JSON object. -/
def dictGet (entries : List (String × String)) (key dflt : String) : String :=
  match entries.find? (fun e => e.fst == key) with
  | some e => e.snd
  | none => dflt

/-- Function `config.get_backend` (src/config.py lines 18-32): if the config file
exists, open it and return `json.load(f).get("backend", "ollama")`; otherwise
return "ollama".  There is no exception handler, so failures of `open`,
`json.load` or `.get` propagate to the caller (and `main` calls `get_backend`
outside its try block). -/
def get_backend : ConfigFile → PyResult String
  | .absent => .ok "ollama"
  | .unreadable => .raised "OSError"
  | .present .malformed => .raised "JSONDecodeError"
  | .present .jsonNonObj => .raised "AttributeError"
  | .present (.jsonObj entries) => .ok (dictGet entries "backend" "ollama")

/-! ### ExecutionGate (src/main.py lines 130-353)

`GumCommandInterface` interacts with the user through `gum_confirm` and
`gum_choose`, queries the backend for risk explanations, and runs the chosen
command in a subprocess.  These collaborators are modelled as an oracle
environment `GateEnv`: `confirm` is the user's answer to each confirmation
message, `choose` the option selected from a choice list (the source's
`gum_choose` returns either an option or the exit sentinel), `query` the
backend reply, and `run` the outcome of `subprocess.run` on a command.

`handle_command_execution` additionally returns the list of commands passed
to `execute_command`, recording whether the subprocess stage was reached —
instrumentation needed to state "execute_command is never invoked". -/

/-- Outcome of `subprocess.run(["/bin/bash", "-c", command], ...)`:
the spawn itself may raise, otherwise the process finishes with an exit code
and captured output. -/
inductive RunOutcome where
  | spawnFailure
  | finished (exitCode : Int) (stdout stderr : String)

structure GateEnv where
  confirm : String → Bool
  choose : List String → String → String
  query : String → List String → String → String
  run : String → RunOutcome

/-- Function `GumCommandInterface.execute_command` (src/main.py lines 319-353): returns
`True` iff the subprocess was spawned and exited with code 0; a spawn failure
is caught and reported as `False`. -/
def execute_command (env : GateEnv) (command : String) : Bool :=
  match env.run command with
  | .spawnFailure => false
  | .finished exitCode _ _ => exitCode == 0

def safeMsg (command : String) : String := "Run safe command: " ++ command ++ "?"

def sudoMsg (command : String) : String :=
  "⚠️  This command requires elevated privileges: " ++ command ++ "\nProceed?"

def dangerHeader (command : String) : String := "⚠️  DANGEROUS COMMAND DETECTED: " ++ command

def dangerOptions : List String :=
  ["🚨 Explain risks first", "🔒 I understand the risks, proceed anyway", "❌ Cancel"]

def riskConfirmMsg : String := "After reading the risks, do you still want to proceed?"

def sureMsg : String := "Are you sure you want to proceed with this dangerous command?"

def unknownMsg (command : String) : String :=
  "⚠️  Unknown command classification: " ++ command ++ "\nProceed with caution?"

/-- The risk-analysis prompt of `explain_command_risks` (src/main.py lines
250-263). -/
def riskPrompt (command : String) : String :=
  "Explain the potential risks and dangers of running this command: \x27" ++ command ++
    "\x27. What could go wrong? What precautions should be taken?"

/-- Function `GumCommandInterface.handle_command_execution` (src/main.py lines
265-317), instrumented with the list of commands handed to
`execute_command`.  The source guards the dangerous-branch tests with
`choice and choice.startswith(...)`; since an empty choice starts with
neither marker, the truthiness test is subsumed by the startswith test. -/
def handle_command_execution (env : GateEnv) (command : String) (history : List String)
    (system_info : String) : Bool × List String :=
  if classify_command command.toList = "safe" then
    if env.confirm (safeMsg command) then (execute_command env command, [command])
    else (false, [])
  else if classify_command command.toList = "sudo" then
    if env.confirm (sudoMsg command) then (execute_command env command, [command])
    else (false, [])
  else if classify_command command.toList = "dangerous" then
    if pfxOf ("🚨".toList) (env.choose dangerOptions (dangerHeader command)).toList then
      let _risks := env.query (riskPrompt command) history system_info
      if env.confirm riskConfirmMsg then (execute_command env command, [command])
      else (false, [])
    else if pfxOf ("🔒".toList) (env.choose dangerOptions (dangerHeader command)).toList then
      if env.confirm sureMsg then (execute_command env command, [command])
      else (false, [])
    else (false, [])
  else
    if env.confirm (unknownMsg command) then (execute_command env command, [command])
    else (false, [])

/-- The user rejects the gate at the branch actually taken: answers no to the
confirmation asked for the command's tier, or — at the dangerous three-way
choice — selects an option that is neither "explain" nor "proceed" (Cancel or
the no-command sentinel), or selects one of those but then declines the
follow-up confirmation. -/
def userRejects (env : GateEnv) (command : String) : Prop :=
  (classify_command command.toList = "safe" ∧ env.confirm (safeMsg command) = false) ∨
  (classify_command command.toList = "sudo" ∧ env.confirm (sudoMsg command) = false) ∨
  (classify_command command.toList = "dangerous" ∧
    ((pfxOf ("🚨".toList) (env.choose dangerOptions (dangerHeader command)).toList = false ∧
      pfxOf ("🔒".toList) (env.choose dangerOptions (dangerHeader command)).toList = false) ∨
     (pfxOf ("🚨".toList) (env.choose dangerOptions (dangerHeader command)).toList = true ∧
      env.confirm riskConfirmMsg = false) ∨
     (pfxOf ("🚨".toList) (env.choose dangerOptions (dangerHeader command)).toList = false ∧
      pfxOf ("🔒".toList) (env.choose dangerOptions (dangerHeader command)).toList = true ∧
      env.confirm sureMsg = false))) ∨
  (classify_command command.toList = "unknown" ∧ env.confirm (unknownMsg command) = false)

/-! ### Backend prompt construction (claim C9)

Each backend module's `query` builds the same `full_prompt` f-string from the
user prompt, the terminal history and the system info, and sends it as the
user message; the three copies are embedded separately, one per module. -/

inductive Backend where
  | gpt
  | claude
  | ollama

/-- Python `history[-10:]`: the last (at most) ten entries. -/
def lastN (n : Nat) (l : List String) : List String := l.drop (l.length - n)

/-- Term `full_prompt` of `gpt_backend.query` (src/gpt_backend.py line 159). -/
def gpt_full_prompt (prompt : String) (history : List String) (system_info : String) :
    String :=
  "Terminal history: " ++ String.intercalate ", " (lastN 10 history) ++
    "\n\nSystem: " ++ system_info ++ "\n\nQuestion: " ++ prompt

/-- Term `full_prompt` of `claude_backend.query` (src/claude_backend.py line 131). -/
def claude_full_prompt (prompt : String) (history : List String) (system_info : String) :
    String :=
  "Terminal history: " ++ String.intercalate ", " (lastN 10 history) ++
    "\n\nSystem: " ++ system_info ++ "\n\nQuestion: " ++ prompt

/-- Term `full_prompt` of `ollama_backend.query` (src/ollama_backend.py line 30). -/
def ollama_full_prompt (prompt : String) (history : List String) (system_info : String) :
    String :=
  "Terminal history: " ++ String.intercalate ", " (lastN 10 history) ++
    "\n\nSystem: " ++ system_info ++ "\n\nQuestion: " ++ prompt

/-- The user-message content each backend sends to its model. -/
def sentPrompt : Backend → String → List String → String → String
  | .gpt => gpt_full_prompt
  | .claude => claude_full_prompt
  | .ollama => ollama_full_prompt

/-! ## Theorems -/

example : classify_command ("ls -la".toList) = "safe" := by decide

example : classify_command ("rm -rf /".toList) = "dangerous" := by decide

example : classify_command ("rm somefile.txt".toList) = "sudo" := by decide

example : classify_command ("frobnicate --all".toList) = "unknown" := by decide

/-! ### Classifier facts used by several claims -/

theorem pfxOf_iff {n h : List Char} : pfxOf n h = true ↔ ∃ v, h = n ++ v := by
  induction n generalizing h with
  | nil => simp [pfxOf]
  | cons a as ih =>
    cases h with
    | nil => simp [pfxOf]
    | cons b bs =>
      simp only [pfxOf, Bool.and_eq_true, beq_iff_eq, ih, List.cons_append,
        List.cons.injEq]
      constructor
      · rintro ⟨rfl, v, rfl⟩
        exact ⟨v, rfl, rfl⟩
      · rintro ⟨v, rfl, rfl⟩
        exact ⟨rfl, v, rfl⟩

theorem pfxOf_append {n h t : List Char} (hp : pfxOf n h = true) :
    pfxOf n (h ++ t) = true := by
  obtain ⟨v, rfl⟩ := pfxOf_iff.mp hp
  exact pfxOf_iff.mpr ⟨v ++ t, by simp⟩

theorem hasSub_iff {h n : List Char} : hasSub h n = true ↔ ∃ u v, h = u ++ n ++ v := by
  induction h with
  | nil =>
    simp only [hasSub, List.isEmpty_iff]
    constructor
    · rintro rfl; exact ⟨[], [], rfl⟩
    · rintro ⟨u, v, huv⟩
      rcases u with _ | ⟨a, u⟩
      · rcases n with _ | ⟨b, n⟩
        · rfl
        · simp at huv
      · simp at huv
  | cons a t ih =>
    simp only [hasSub, Bool.or_eq_true, pfxOf_iff, ih]
    constructor
    · rintro (⟨v, hv⟩ | ⟨u, v, rfl⟩)
      · exact ⟨[], v, by simpa using hv⟩
      · exact ⟨a :: u, v, rfl⟩
    · rintro ⟨u, v, huv⟩
      rcases u with _ | ⟨b, u⟩
      · exact Or.inl ⟨v, by simpa using huv⟩
      · simp only [List.cons_append, List.cons.injEq] at huv
        exact Or.inr ⟨u, v, huv.2⟩

/-- A substring of a part is a substring of the whole. -/
theorem hasSub_of_sub {h u m v n : List Char} (hd : h = u ++ m ++ v)
    (hs : hasSub m n = true) : hasSub h n = true := by
  obtain ⟨x, y, rfl⟩ := hasSub_iff.mp hs
  exact hasSub_iff.mpr ⟨u ++ x, y ++ v, by simp [hd]⟩

theorem mem_of_sub {h u m v : List Char} (hd : h = u ++ m ++ v) {c : Char}
    (hc : c ∈ m) : c ∈ h := by
  subst hd; simp [hc]

/-- C1: for a command whose trimmed lower-cased form starts with one of the
filesystem-mutating verbs (rm, rmdir, mv, cp, ln, unlink) and contains no
dangerous-pattern substring, `classify_command` returns "dangerous" exactly
when the string contains one of the protected-path substrings of the source
list `["/", "/home", "/etc", "/usr", "/var", "/boot"]` (the root path, home,
/etc, /usr, /var, /boot), and "sudo" otherwise. -/
theorem classify_fs_protected_split (cmd : List Char)
    (hfs : FILESYSTEM_DESTRUCTIVE.any (fun fs_cmd => pfxOf fs_cmd (lowerStrip cmd)) = true)
    (hnd : DANGEROUS_COMMANDS.any (fun danger => hasSub (lowerStrip cmd) danger) = false) :
    classify_command cmd =
      (if PROTECTED_PATHS.any (fun path => hasSub (lowerStrip cmd) path) then "dangerous"
       else "sudo") := by
  simp [classify_command, hfs, hnd]

/-- Witness for C1 at the concrete command "rm -r /etc/apt". -/
theorem classify_fs_protected_split_witness :
    FILESYSTEM_DESTRUCTIVE.any
        (fun fs_cmd => pfxOf fs_cmd (lowerStrip ("rm -r /etc/apt".toList))) = true ∧
    DANGEROUS_COMMANDS.any
        (fun danger => hasSub (lowerStrip ("rm -r /etc/apt".toList)) danger) = false ∧
    classify_command ("rm -r /etc/apt".toList) =
      (if PROTECTED_PATHS.any
            (fun path => hasSub (lowerStrip ("rm -r /etc/apt".toList)) path) then "dangerous"
       else "sudo") :=
  ⟨by decide, by decide, classify_fs_protected_split _ (by decide) (by decide)⟩

/-- C2: any command whose trimmed lower-cased form contains a dangerous-pattern
substring is classified "dangerous", regardless of which prefix rules it also
matches (tier-1 precedence). -/
theorem classify_danger_precedence (cmd : List Char)
    (hd : DANGEROUS_COMMANDS.any (fun danger => hasSub (lowerStrip cmd) danger) = true) :
    classify_command cmd = "dangerous" := by
  simp [classify_command, hd]

/-- Witness for C2 at "ls; rm -rf /tmp/x", which starts with the safe prefix
"ls" yet contains the dangerous pattern "rm -rf". -/
theorem classify_danger_precedence_witness :
    DANGEROUS_COMMANDS.any
        (fun danger => hasSub (lowerStrip ("ls; rm -rf /tmp/x".toList)) danger) = true ∧
    classify_command ("ls; rm -rf /tmp/x".toList) = "dangerous" :=
  ⟨by decide, classify_danger_precedence _ (by decide)⟩

/-- C10: classifier prefix matching uses no word boundary: any command whose
trimmed lower-cased form begins with the three characters "cat" and contains
no dangerous-pattern substring is classified "safe", even when its first word
is not the program `cat`. -/
theorem classify_cat_no_boundary (cmd : List Char)
    (hcat : pfxOf ("cat".toList) (lowerStrip cmd) = true)
    (hnd : DANGEROUS_COMMANDS.any (fun danger => hasSub (lowerStrip cmd) danger) = false) :
    classify_command cmd = "safe" := by
  obtain ⟨v, hv⟩ := pfxOf_iff.mp hcat
  have hfs : FILESYSTEM_DESTRUCTIVE.any (fun fs_cmd => pfxOf fs_cmd (lowerStrip cmd)) = false := by
    rw [hv]; rfl
  have hsudo : SUDO_COMMANDS.any (fun sudo_cmd => pfxOf sudo_cmd (lowerStrip cmd)) = false := by
    rw [hv]; rfl
  have hsafe : SAFE_COMMANDS.any (fun safe_cmd => pfxOf safe_cmd (lowerStrip cmd)) = true := by
    rw [hv]; rfl
  simp [classify_command, hnd, hfs, hsudo, hsafe]

example :
    extract_commands ("Try:\n```bash\n# list files\nls -la\n```".toList) =
      ["ls -la".toList] := by decide

example :
    extract_commands ("no commands here".toList) = [] := by decide

example :
    extract_commands ("run `sudo reboot` please".toList) = ["sudo reboot".toList] := by
  decide

example :
    extract_commands ("```sh\ncd /tmp\nmv a b\n```".toList) =
      ["cd /tmp".toList, "mv a b".toList] := by decide

/-! ### Scanner lemmas -/

theorem findClose_sound :
    ∀ {s b r : List Char}, findClose s = some (b, r) →
      s = b ++ tripleBT ++ r ∧ hasSub b tripleBT = false := by
  intro s
  induction s with
  | nil => intro b r h; simp [findClose] at h
  | cons c cs ih =>
    intro b r h
    unfold findClose at h
    split at h
    · rename_i hpfx
      obtain ⟨v, hv⟩ := pfxOf_iff.mp hpfx
      injection h with h
      injection h with hb hr
      subst hb
      constructor
      · rw [hv] at hr ⊢
        have : (tripleBT ++ v).drop 3 = v := by
          have h3 : tripleBT.length = 3 := by decide
          rw [← h3, List.drop_left]
        rw [this] at hr
        simp [← hr]
      · decide
    · rename_i hpfx
      cases hfc : findClose cs with
      | none => rw [hfc] at h; exact absurd h (by simp)
      | some p =>
        obtain ⟨b0, r0⟩ := p
        rw [hfc] at h
        injection h with h
        injection h with hb hr
        obtain ⟨hcs, hnb⟩ := ih hfc
        subst hb; subst hr
        refine ⟨by simp [hcs], ?_⟩
        have hps : pfxOf tripleBT (c :: b0) = false := by
          cases hq : pfxOf tripleBT (c :: b0) with
          | false => rfl
          | true =>
            exfalso
            have : pfxOf tripleBT (c :: cs) = true := by
              have : c :: cs = (c :: b0) ++ (tripleBT ++ r0) := by simp [hcs]
              rw [this]
              exact pfxOf_append hq
            simp [this] at hpfx
        simp [hasSub, hps, hnb]

theorem findClose_length {s b r : List Char} (h : findClose s = some (b, r)) :
    r.length + 3 ≤ s.length := by
  have := (findClose_sound h).1
  subst this
  simp only [List.length_append]
  have h3 : tripleBT.length = 3 := by decide
  omega

/-- A successful `matchOpen` consumed one of the four concrete fence
openings. -/
theorem matchOpen_cases {s r : List Char} (h : matchOpen s = some r) :
    s = "```bash\n".toList ++ r ∨ s = "```sh\n".toList ++ r ∨
    s = "```shell\n".toList ++ r ∨ s = "```\n".toList ++ r := by
  unfold matchOpen at h
  split_ifs at h with h1 h2 h3 h4
  · obtain ⟨v, rfl⟩ := pfxOf_iff.mp h1
    injection h with h
    have h8 : ("```bash\n".toList).length = 8 := by decide
    rw [← h8, List.drop_left] at h
    subst h
    exact Or.inl rfl
  · obtain ⟨v, rfl⟩ := pfxOf_iff.mp h2
    injection h with h
    have h6 : ("```sh\n".toList).length = 6 := by decide
    rw [← h6, List.drop_left] at h
    subst h
    exact Or.inr (Or.inl rfl)
  · obtain ⟨v, rfl⟩ := pfxOf_iff.mp h3
    injection h with h
    have h9 : ("```shell\n".toList).length = 9 := by decide
    rw [← h9, List.drop_left] at h
    subst h
    exact Or.inr (Or.inr (Or.inl rfl))
  · obtain ⟨v, rfl⟩ := pfxOf_iff.mp h4
    injection h with h
    have h4l : ("```\n".toList).length = 4 := by decide
    rw [← h4l, List.drop_left] at h
    subst h
    exact Or.inr (Or.inr (Or.inr rfl))

theorem matchOpen_length {s r : List Char} (h : matchOpen s = some r) :
    r.length + 4 ≤ s.length := by
  rcases matchOpen_cases h with h | h | h | h <;>
    subst h <;> rw [List.length_append] <;>
    simp only [show ("```bash\n".toList).length = 8 from by decide,
      show ("```sh\n".toList).length = 6 from by decide,
      show ("```shell\n".toList).length = 9 from by decide,
      show ("```\n".toList).length = 4 from by decide] <;> omega

theorem scanBlocksF_fuel :
    ∀ fuel : Nat, ∀ s : List Char, s.length ≤ fuel → scanBlocksF fuel s = scanBlocks s := by
  intro fuel
  induction fuel using Nat.strong_induction_on with
  | _ fuel ih =>
    intro s hs
    match fuel, s with
    | 0, s =>
      have hnil : s = [] := List.eq_nil_of_length_eq_zero (Nat.le_zero.mp hs)
      subst hnil
      rfl
    | f + 1, [] => rfl
    | f + 1, c :: cs =>
      have hcs : cs.length ≤ f := by simpa using hs
      show scanBlocksF (f + 1) (c :: cs) = scanBlocksF (cs.length + 1) (c :: cs)
      simp only [scanBlocksF]
      cases hmo : matchOpen (c :: cs) with
      | none =>
        dsimp only
        rw [ih f (Nat.lt_succ_self f) cs hcs]
        rw [ih cs.length (Nat.lt_succ_of_le hcs) cs (le_refl _)]
      | some rest =>
        dsimp only
        cases hfc : findClose rest with
        | none =>
          dsimp only
          rw [ih f (Nat.lt_succ_self f) cs hcs]
          rw [ih cs.length (Nat.lt_succ_of_le hcs) cs (le_refl _)]
        | some p =>
          obtain ⟨b, r2⟩ := p
          dsimp only
          have hrest : rest.length + 4 ≤ cs.length + 1 := by
            simpa using matchOpen_length hmo
          have hr2 : r2.length + 3 ≤ rest.length := findClose_length hfc
          have hr2f : r2.length ≤ f := by omega
          have hr2c : r2.length ≤ cs.length := by omega
          rw [ih f (Nat.lt_succ_self f) r2 hr2f]
          rw [ih cs.length (Nat.lt_succ_of_le hcs) r2 hr2c]

theorem scanBlocks_cons_none {c : Char} {cs : List Char} (h : matchOpen (c :: cs) = none) :
    scanBlocks (c :: cs) = scanBlocks cs := by
  show scanBlocksF (cs.length + 1) (c :: cs) = _
  simp only [scanBlocksF, h]
  exact scanBlocksF_fuel cs.length cs (le_refl _)

theorem scanBlocks_cons_close {c : Char} {cs rest b r2 : List Char}
    (h1 : matchOpen (c :: cs) = some rest) (h2 : findClose rest = some (b, r2)) :
    scanBlocks (c :: cs) = b :: scanBlocks r2 := by
  show scanBlocksF (cs.length + 1) (c :: cs) = _
  simp only [scanBlocksF, h1, h2]
  have hrest : rest.length + 4 ≤ cs.length + 1 := by simpa using matchOpen_length h1
  have hr2 : r2.length + 3 ≤ rest.length := findClose_length h2
  rw [scanBlocksF_fuel cs.length r2 (by omega)]

theorem scanBlocks_cons_fail {c : Char} {cs rest : List Char}
    (h1 : matchOpen (c :: cs) = some rest) (h2 : findClose rest = none) :
    scanBlocks (c :: cs) = scanBlocks cs := by
  show scanBlocksF (cs.length + 1) (c :: cs) = _
  simp only [scanBlocksF, h1, h2]
  exact scanBlocksF_fuel cs.length cs (le_refl _)

theorem matchOpen_none_of_ne {c : Char} {cs : List Char} (h : c ≠ btChar) :
    matchOpen (c :: cs) = none := by
  have hb : (btChar == c) = false := beq_eq_false_iff_ne.mpr (Ne.symm h)
  unfold matchOpen
  have e1 : pfxOf ("```bash\n".toList) (c :: cs) = false := by
    rw [show ("```bash\n".toList) = btChar :: "``bash\n".toList from by decide]
    simp [pfxOf, hb]
  have e2 : pfxOf ("```sh\n".toList) (c :: cs) = false := by
    rw [show ("```sh\n".toList) = btChar :: "``sh\n".toList from by decide]
    simp [pfxOf, hb]
  have e3 : pfxOf ("```shell\n".toList) (c :: cs) = false := by
    rw [show ("```shell\n".toList) = btChar :: "``shell\n".toList from by decide]
    simp [pfxOf, hb]
  have e4 : pfxOf ("```\n".toList) (c :: cs) = false := by
    rw [show ("```\n".toList) = btChar :: "``\n".toList from by decide]
    simp [pfxOf, hb]
  rw [e1, e2, e3, e4]
  simp

/-- Text containing no backtick contributes no fenced block: scanning may skip
over it. -/
theorem scanBlocks_skip {p t : List Char} (hp : ∀ ch ∈ p, ch ≠ btChar) :
    scanBlocks (p ++ t) = scanBlocks t := by
  induction p with
  | nil => simp
  | cons a q ih =>
    have ha : a ≠ btChar := hp a (by simp)
    rw [List.cons_append, scanBlocks_cons_none (matchOpen_none_of_ne ha)]
    exact ih (fun ch hch => hp ch (by simp [hch]))

theorem pfxOf_append_left {n h t : List Char} (hp : pfxOf n (h ++ t) = true)
    (hl : n.length ≤ h.length) : pfxOf n h = true := by
  induction n generalizing h with
  | nil => rfl
  | cons a as ih =>
    cases h with
    | nil => simp at hl
    | cons b bs =>
      simp only [List.cons_append, pfxOf, Bool.and_eq_true] at hp ⊢
      exact ⟨hp.1, ih hp.2 (by simpa using hl)⟩

/-- Scanning for the closing marker behind a body containing no triple
backtick and not ending in a backtick finds exactly the marker we appended. -/
theorem findClose_append :
    ∀ {body r : List Char}, hasSub body tripleBT = false →
      body.getLast? ≠ some btChar →
      findClose (body ++ tripleBT ++ r) = some (body, r) := by
  intro body
  induction body with
  | nil =>
    intro r _ _
    show findClose (btChar :: ("``".toList ++ r)) = some ([], r)
    have hpt : pfxOf tripleBT (btChar :: ("``".toList ++ r)) = true := rfl
    simp only [findClose, hpt, if_true]
    rfl
  | cons a q ih =>
    intro r hnt hlast
    have hshape : (a :: q) ++ tripleBT ++ r = a :: (q ++ tripleBT ++ r) := by simp
    rw [hshape]
    have hstep : pfxOf tripleBT (a :: (q ++ tripleBT ++ r)) = false := by
      cases hq : pfxOf tripleBT (a :: (q ++ tripleBT ++ r)) with
      | false => rfl
      | true =>
        exfalso
        rcases q with _ | ⟨x, (_ | ⟨y, rest⟩)⟩
        · rw [show tripleBT = btChar :: btChar :: btChar :: [] from by decide] at hq
          simp only [List.nil_append, pfxOf, Bool.and_eq_true, beq_iff_eq] at hq
          exact hlast (by simp [← hq.1])
        · rw [show tripleBT = btChar :: btChar :: btChar :: [] from by decide] at hq
          simp only [List.cons_append, List.nil_append, pfxOf, Bool.and_eq_true,
            beq_iff_eq] at hq
          exact hlast (by simp [← hq.2.1])
        · have hq2 : pfxOf tripleBT (a :: x :: y :: rest) = true := by
            have hsh : a :: (x :: y :: rest ++ tripleBT ++ r) =
                (a :: x :: y :: rest) ++ (tripleBT ++ r) := by simp
            rw [hsh] at hq
            refine pfxOf_append_left hq ?_
            simp [tripleBT]
          have : hasSub (a :: x :: y :: rest) tripleBT = true := by
            simp [hasSub, hq2]
          rw [this] at hnt
          simp at hnt
    have hfc := ih (r := r) (by
        cases hq2 : hasSub q tripleBT with
        | false => rfl
        | true =>
          exfalso
          have : hasSub (a :: q) tripleBT = true := by simp [hasSub, hq2]
          rw [this] at hnt
          simp at hnt)
      (by
        intro hx
        rcases List.eq_nil_or_concat q with rfl | ⟨q0, z, rfl⟩
        · simp at hx
        · apply hlast
          simp only [List.concat_eq_append] at hx ⊢
          rw [show a :: (q0 ++ [z]) = (a :: q0) ++ [z] from by simp]
          rw [List.getLast?_concat] at hx ⊢
          exact hx)
    simp only [findClose, hstep]
    rw [hfc]
    simp

theorem matchOpen_pre_bash (rest : List Char) :
    matchOpen (btChar :: ("``bash\n".toList ++ rest)) = some rest := rfl

theorem matchOpen_pre_sh (rest : List Char) :
    matchOpen (btChar :: ("``sh\n".toList ++ rest)) = some rest := rfl

theorem matchOpen_pre_shell (rest : List Char) :
    matchOpen (btChar :: ("``shell\n".toList ++ rest)) = some rest := rfl

theorem matchOpen_pre_plain (rest : List Char) :
    matchOpen (btChar :: ("``\n".toList ++ rest)) = some rest := rfl

/-- A well-formed fence (allowed tag, body without triple backtick and not
ending in a backtick) is recognised as the first block, and scanning resumes
after its closing marker. -/
theorem scanBlocks_fence {tag body q : List Char}
    (htag : tag = "bash".toList ∨ tag = "sh".toList ∨ tag = "shell".toList ∨ tag = [])
    (hnt : hasSub body tripleBT = false)
    (hlast : body.getLast? ≠ some btChar) :
    scanBlocks (tripleBT ++ tag ++ "\n".toList ++ body ++ tripleBT ++ q) =
      body :: scanBlocks q := by
  have hfc := findClose_append (r := q) hnt hlast
  rcases htag with rfl | rfl | rfl | rfl
  · have hsh : tripleBT ++ "bash".toList ++ "\n".toList ++ body ++ tripleBT ++ q =
        btChar :: ("``bash\n".toList ++ (body ++ tripleBT ++ q)) := by
      rw [show (btChar :: ("``bash\n".toList ++ (body ++ tripleBT ++ q))) =
        (btChar :: "``bash\n".toList) ++ (body ++ tripleBT ++ q) from by simp]
      rw [show (btChar :: "``bash\n".toList) =
        tripleBT ++ "bash".toList ++ "\n".toList from by decide]
      simp [List.append_assoc]
    rw [hsh, scanBlocks_cons_close (matchOpen_pre_bash _) hfc]
  · have hsh : tripleBT ++ "sh".toList ++ "\n".toList ++ body ++ tripleBT ++ q =
        btChar :: ("``sh\n".toList ++ (body ++ tripleBT ++ q)) := by
      rw [show (btChar :: ("``sh\n".toList ++ (body ++ tripleBT ++ q))) =
        (btChar :: "``sh\n".toList) ++ (body ++ tripleBT ++ q) from by simp]
      rw [show (btChar :: "``sh\n".toList) =
        tripleBT ++ "sh".toList ++ "\n".toList from by decide]
      simp [List.append_assoc]
    rw [hsh, scanBlocks_cons_close (matchOpen_pre_sh _) hfc]
  · have hsh : tripleBT ++ "shell".toList ++ "\n".toList ++ body ++ tripleBT ++ q =
        btChar :: ("``shell\n".toList ++ (body ++ tripleBT ++ q)) := by
      rw [show (btChar :: ("``shell\n".toList ++ (body ++ tripleBT ++ q))) =
        (btChar :: "``shell\n".toList) ++ (body ++ tripleBT ++ q) from by simp]
      rw [show (btChar :: "``shell\n".toList) =
        tripleBT ++ "shell".toList ++ "\n".toList from by decide]
      simp [List.append_assoc]
    rw [hsh, scanBlocks_cons_close (matchOpen_pre_shell _) hfc]
  · have hsh : tripleBT ++ [] ++ "\n".toList ++ body ++ tripleBT ++ q =
        btChar :: ("``\n".toList ++ (body ++ tripleBT ++ q)) := by
      rw [show (btChar :: ("``\n".toList ++ (body ++ tripleBT ++ q))) =
        (btChar :: "``\n".toList) ++ (body ++ tripleBT ++ q) from by simp]
      rw [show (btChar :: "``\n".toList) =
        tripleBT ++ ([] : List Char) ++ "\n".toList from by decide]
      simp [List.append_assoc]
    rw [hsh, scanBlocks_cons_close (matchOpen_pre_plain _) hfc]

/-- C7 counterexample: with the unrecognised language tag "python" the fenced
region is not matched at all, so no command is extracted — refuting the claim
that a fence with any language tag has its lines extracted. -/
theorem extract_fenced_cex :
    extract_commands ("```python\nls -la\n```".toList) = [] ∧
    extract_commands ("```python\nls -la\n```".toList) ≠ ["ls -la".toList] := by
  constructor
  · decide
  · decide

/-- C7 (amended): for a fenced region whose tag is one of bash, sh, shell or
empty (the only alternatives of the source pattern), whose body contains no
triple backtick and does not end in a backtick, and which is preceded by
backtick-free text, `extract_commands` returns the region's lines — trimmed,
with empty lines and lines starting with '#' dropped — in order, as the first
commands of its result. -/
theorem extract_fenced_amended (p tag body q : List Char)
    (hp : ∀ ch ∈ p, ch ≠ btChar)
    (htag : tag = "bash".toList ∨ tag = "sh".toList ∨ tag = "shell".toList ∨ tag = [])
    (hnt : hasSub body tripleBT = false)
    (hlast : body.getLast? ≠ some btChar) :
    ∃ rest,
      extract_commands (p ++ (tripleBT ++ tag ++ "\n".toList ++ body ++ tripleBT ++ q)) =
        ((splitNl (pyStrip body)).map pyStrip).filter goodLine ++ rest := by
  unfold extract_commands
  rw [scanBlocks_skip hp, scanBlocks_fence htag hnt hlast]
  refine ⟨catl ((scanBlocks q).map processBlock) ++
      (scanInline (p ++ (tripleBT ++ tag ++ "\n".toList ++ body ++ tripleBT ++ q))).filterMap
        inlineRule, ?_⟩
  simp [catl, processBlock, List.append_assoc]

/-- Witness for C7 (amended) at a concrete fence embedded in surrounding
text. -/
theorem extract_fenced_amended_witness :
    (∀ ch ∈ ("Try: ".toList), ch ≠ btChar) ∧
    hasSub ("# list files\nls -la".toList) tripleBT = false ∧
    ("# list files\nls -la".toList).getLast? ≠ some btChar ∧
    (∃ rest,
      extract_commands ("Try: ".toList ++
          (tripleBT ++ "bash".toList ++ "\n".toList ++ ("# list files\nls -la".toList) ++
            tripleBT ++ (" done".toList))) =
        ((splitNl (pyStrip ("# list files\nls -la".toList))).map pyStrip).filter goodLine ++
          rest) :=
  ⟨by decide, by decide, by decide,
    extract_fenced_amended _ _ _ _ (by decide) (Or.inl rfl) (by decide) (by decide)⟩

/-! ### Lemmas about `pyStrip` and `splitNl` -/

theorem dropWhile_head_false {p : Char → Bool} :
    ∀ {s : List Char} {a : Char}, (s.dropWhile p).head? = some a → p a = false := by
  intro s
  induction s with
  | nil => intro a h; simp at h
  | cons c cs ih =>
    intro a h
    by_cases hc : p c = true
    · rw [List.dropWhile_cons_of_pos hc] at h
      exact ih h
    · rw [List.dropWhile_cons_of_neg hc] at h
      simp only [List.head?_cons, Option.some.injEq] at h
      subst h
      exact Bool.eq_false_iff.mpr hc

theorem dropWhile_noop {p : Char → Bool} {s : List Char}
    (h : ∀ a, s.head? = some a → p a = false) : s.dropWhile p = s := by
  cases s with
  | nil => rfl
  | cons c cs =>
    rw [List.dropWhile_cons_of_neg]
    rw [h c (by simp)]
    simp

theorem dropTrail_noop {p : Char → Bool} {s : List Char}
    (h : ∀ a, s.getLast? = some a → p a = false) : dropTrail p s = s := by
  unfold dropTrail
  rw [dropWhile_noop, List.reverse_reverse]
  intro a ha
  rw [List.head?_reverse] at ha
  exact h a ha

theorem dropTrail_decomp (p : Char → Bool) (s : List Char) :
    s = dropTrail p s ++ (s.reverse.takeWhile p).reverse := by
  unfold dropTrail
  rw [← List.reverse_append, List.takeWhile_append_dropWhile, List.reverse_reverse]

theorem pyStrip_decomp (s : List Char) :
    s = (s.takeWhile isWs) ++ pyStrip s ++ ((s.dropWhile isWs).reverse.takeWhile isWs).reverse := by
  unfold pyStrip
  conv_lhs => rw [← List.takeWhile_append_dropWhile (p := isWs) (l := s)]
  rw [List.append_assoc]
  congr 1
  exact dropTrail_decomp isWs (s.dropWhile isWs)

theorem pyStrip_head {s : List Char} {a : Char} (h : (pyStrip s).head? = some a) :
    isWs a = false := by
  have hd := dropTrail_decomp isWs (s.dropWhile isWs)
  rcases hrev : pyStrip s with _ | ⟨b, bs⟩
  · rw [hrev] at h; simp at h
  · rw [hrev] at h
    simp only [List.head?_cons, Option.some.injEq] at h
    have hpre : (s.dropWhile isWs).head? = some b := by
      have hdec : s.dropWhile isWs =
          (b :: bs) ++ ((s.dropWhile isWs).reverse.takeWhile isWs).reverse := by
        rw [← hrev]
        exact hd
      rw [hdec]
      simp
    have hwb := dropWhile_head_false hpre
    rwa [h] at hwb

theorem pyStrip_last {s : List Char} {a : Char} (h : (pyStrip s).getLast? = some a) :
    isWs a = false := by
  unfold pyStrip dropTrail at h
  rw [← List.head?_reverse, List.reverse_reverse] at h
  exact dropWhile_head_false h

theorem pyStrip_idem (s : List Char) : pyStrip (pyStrip s) = pyStrip s := by
  have h1 : (pyStrip s).dropWhile isWs = pyStrip s :=
    dropWhile_noop (fun a ha => pyStrip_head ha)
  show dropTrail isWs ((pyStrip s).dropWhile isWs) = pyStrip s
  rw [h1]
  exact dropTrail_noop (fun a ha => pyStrip_last ha)

theorem length_dropTrail_le (p : Char → Bool) (s : List Char) :
    (dropTrail p s).length ≤ s.length := by
  unfold dropTrail
  rw [List.length_reverse]
  calc ((s.reverse).dropWhile p).length ≤ s.reverse.length :=
          (List.dropWhile_suffix p).length_le
    _ = s.length := List.length_reverse s

theorem pyStrip_fixed_head {a : Char} {q : List Char} (h : pyStrip (a :: q) = a :: q) :
    isWs a = false := by
  by_contra hws
  rw [Bool.not_eq_false] at hws
  have hlen : (pyStrip (a :: q)).length ≤ q.length := by
    show (dropTrail isWs ((a :: q).dropWhile isWs)).length ≤ q.length
    rw [List.dropWhile_cons_of_pos hws]
    calc (dropTrail isWs (q.dropWhile isWs)).length ≤ (q.dropWhile isWs).length :=
          length_dropTrail_le _ _
      _ ≤ q.length := (List.dropWhile_suffix isWs).length_le
  rw [h] at hlen
  simp only [List.length_cons] at hlen
  omega

theorem pyStrip_append_nl {c : List Char} (h : pyStrip c = c) :
    pyStrip (c ++ ['\n']) = c := by
  cases c with
  | nil => decide
  | cons a q =>
    have ha : isWs a = false := pyStrip_fixed_head h
    have hdw : ((a :: q) ++ ['\n']).dropWhile isWs = (a :: q) ++ ['\n'] := by
      rw [List.cons_append, List.dropWhile_cons_of_neg (by simp [ha])]
    have hdwc : (a :: q).dropWhile isWs = a :: q := by
      rw [List.dropWhile_cons_of_neg (by simp [ha])]
    have hdt : dropTrail isWs (a :: q) = a :: q := by
      have := h
      unfold pyStrip at this
      rw [hdwc] at this
      exact this
    have hrevdw : (a :: q).reverse.dropWhile isWs = (a :: q).reverse := by
      have : ((a :: q).reverse.dropWhile isWs).reverse = (a :: q).reverse.reverse := by
        rw [List.reverse_reverse]
        exact hdt
      have := congrArg List.reverse this
      rwa [List.reverse_reverse, List.reverse_reverse] at this
    show dropTrail isWs (((a :: q) ++ ['\n']).dropWhile isWs) = a :: q
    rw [hdw]
    unfold dropTrail
    rw [List.reverse_append]
    show (('\n' :: (a :: q).reverse).dropWhile isWs).reverse = a :: q
    rw [List.dropWhile_cons_of_pos (by decide), hrevdw, List.reverse_reverse]

theorem splitNl_ne_nil (s : List Char) : splitNl s ≠ [] := by
  cases s with
  | nil => simp [splitNl]
  | cons c cs =>
    unfold splitNl
    by_cases hc : c = '\n'
    · simp [hc]
    · simp only [if_neg hc]
      cases hsp : splitNl cs with
      | nil => simp
      | cons l ls => simp

theorem splitNl_first : ∀ {s l : List Char} {ls : List (List Char)},
    splitNl s = l :: ls → ∃ v, s = l ++ v := by
  intro s
  induction s with
  | nil =>
    intro l ls h
    simp only [splitNl] at h
    injection h with h1 _
    exact ⟨[], by simp [← h1]⟩
  | cons c cs ih =>
    intro l ls h
    unfold splitNl at h
    by_cases hc : c = '\n'
    · rw [if_pos hc] at h
      injection h with h1 _
      exact ⟨c :: cs, by simp [← h1]⟩
    · rw [if_neg hc] at h
      cases hsp : splitNl cs with
      | nil => exact absurd hsp (splitNl_ne_nil cs)
      | cons l0 ls0 =>
        rw [hsp] at h
        injection h with h1 _
        obtain ⟨v, hv⟩ := ih hsp
        exact ⟨v, by rw [← h1, hv, List.cons_append]⟩

theorem mem_splitNl_no_nl : ∀ {s line : List Char}, line ∈ splitNl s → '\n' ∉ line := by
  intro s
  induction s with
  | nil =>
    intro line h
    simp only [splitNl, List.mem_singleton] at h
    subst h
    simp
  | cons c cs ih =>
    intro line h
    unfold splitNl at h
    by_cases hc : c = '\n'
    · rw [if_pos hc] at h
      rcases List.mem_cons.mp h with rfl | h2
      · simp
      · exact ih h2
    · rw [if_neg hc] at h
      cases hsp : splitNl cs with
      | nil => exact absurd hsp (splitNl_ne_nil cs)
      | cons l0 ls0 =>
        rw [hsp] at h
        rcases List.mem_cons.mp h with rfl | h2
        · intro hmem
          rcases List.mem_cons.mp hmem with rfl | h3
          · exact hc rfl
          · exact ih (by rw [hsp]; exact List.mem_cons_self l0 ls0) h3
        · exact ih (by rw [hsp]; exact List.mem_cons.mpr (Or.inr h2))

theorem mem_splitNl_sub : ∀ {s line : List Char}, line ∈ splitNl s →
    ∃ u v, s = u ++ line ++ v := by
  intro s
  induction s with
  | nil =>
    intro line h
    simp only [splitNl, List.mem_singleton] at h
    subst h
    exact ⟨[], [], rfl⟩
  | cons c cs ih =>
    intro line h
    unfold splitNl at h
    by_cases hc : c = '\n'
    · rw [if_pos hc] at h
      rcases List.mem_cons.mp h with rfl | h2
      · exact ⟨[], c :: cs, rfl⟩
      · obtain ⟨u, v, huv⟩ := ih h2
        exact ⟨c :: u, v, by simp [huv]⟩
    · rw [if_neg hc] at h
      cases hsp : splitNl cs with
      | nil => exact absurd hsp (splitNl_ne_nil cs)
      | cons l0 ls0 =>
        rw [hsp] at h
        rcases List.mem_cons.mp h with rfl | h2
        · obtain ⟨v, hv⟩ := splitNl_first hsp
          exact ⟨[], v, by simp [hv]⟩
        · obtain ⟨u, v, huv⟩ := ih (by rw [hsp]; exact List.mem_cons.mpr (Or.inr h2))
          exact ⟨c :: u, v, by simp [huv]⟩

theorem splitNl_single {c : List Char} (h : '\n' ∉ c) : splitNl c = [c] := by
  induction c with
  | nil => rfl
  | cons a q ih =>
    unfold splitNl
    rw [if_neg (by intro hq; exact h (by simp [hq]))]
    rw [ih (fun hm => h (by simp [hm]))]

/-! ### Characterisation of extracted commands -/

theorem hasSub_append_nl {c : List Char} (hnt : hasSub c tripleBT = false) :
    hasSub (c ++ ['\n']) tripleBT = false := by
  cases hq : hasSub (c ++ ['\n']) tripleBT with
  | false => rfl
  | true =>
    exfalso
    obtain ⟨u, v, huv⟩ := hasSub_iff.mp hq
    rcases List.eq_nil_or_concat v with rfl | ⟨v0, z, rfl⟩
    · have h1 : c ++ ['\n'] = (u ++ [btChar, btChar]) ++ [btChar] := by
        rw [huv]
        rw [show tripleBT = [btChar, btChar, btChar] from by decide]
        simp
      have h2 := congrArg List.getLast? h1
      rw [List.getLast?_concat, List.getLast?_concat] at h2
      exact absurd (Option.some.inj h2) (by decide)
    · have h1 : c ++ ['\n'] = (u ++ tripleBT ++ v0) ++ [z] := by
        rw [huv]
        simp
      obtain ⟨hc, -⟩ := List.append_inj' h1 rfl
      have : hasSub c tripleBT = true := hasSub_iff.mpr ⟨u, v0, hc⟩
      rw [this] at hnt
      simp at hnt

/-- Every body produced by the block scanner contains no triple backtick (the
lazy group stops at the first closing marker). -/
theorem scanBlocks_noTriple :
    ∀ (n : Nat) (s : List Char), s.length ≤ n →
      ∀ b ∈ scanBlocks s, hasSub b tripleBT = false := by
  intro n
  induction n using Nat.strong_induction_on with
  | _ n ih =>
    intro s hs b hb
    cases s with
    | nil => simp [scanBlocks, scanBlocksF] at hb
    | cons c cs =>
      have hslen : cs.length + 1 ≤ n := by simpa using hs
      have hn1 : 1 ≤ n := le_trans (by omega) hslen
      cases hmo : matchOpen (c :: cs) with
      | none =>
        rw [scanBlocks_cons_none hmo] at hb
        exact ih (n - 1) (by omega) cs (by omega) b hb
      | some rest =>
        cases hfc : findClose rest with
        | none =>
          rw [scanBlocks_cons_fail hmo hfc] at hb
          exact ih (n - 1) (by omega) cs (by omega) b hb
        | some p =>
          obtain ⟨b0, r2⟩ := p
          rw [scanBlocks_cons_close hmo hfc] at hb
          rcases List.mem_cons.mp hb with rfl | hb2
          · exact (findClose_sound hfc).2
          · have h1 := matchOpen_length hmo
            have h2 := findClose_length hfc
            simp only [List.length_cons] at h1
            exact ih (n - 1) (by omega) r2 (by omega) b hb2

/-- Inline spans contain neither a backtick nor a newline. -/
theorem scanInlineAux_ok :
    ∀ (s : List Char) (st : Option (List Char)),
      (∀ acc, st = some acc → ∀ ch ∈ acc, ch ≠ btChar ∧ ch ≠ '\n') →
      ∀ sp ∈ scanInlineAux st s, ∀ ch ∈ sp, ch ≠ btChar ∧ ch ≠ '\n' := by
  intro s
  induction s with
  | nil => intro st hst sp hsp; simp [scanInlineAux] at hsp
  | cons c cs ih =>
    intro st hst sp hsp
    cases st with
    | none =>
      rw [show scanInlineAux none (c :: cs) =
          (if c = btChar then scanInlineAux (some []) cs
           else scanInlineAux none cs) from rfl] at hsp
      by_cases hc : c = btChar
      · rw [if_pos hc] at hsp
        exact ih (some []) (by intro acc hacc ch hch; injection hacc with h0; rw [← h0] at hch; simp at hch) sp hsp
      · rw [if_neg hc] at hsp
        exact ih none (by simp) sp hsp
    | some acc =>
      by_cases hc : c = btChar
      · cases acc with
        | nil =>
          rw [show scanInlineAux (some []) (c :: cs) =
              (if c = btChar then scanInlineAux (some []) cs
               else if c = '\n' then scanInlineAux none cs
               else scanInlineAux (some [c]) cs) from rfl, if_pos hc] at hsp
          exact ih (some []) (by intro a ha ch hch; injection ha with h0; rw [← h0] at hch; simp at hch) sp hsp
        | cons a0 acc0 =>
          rw [show scanInlineAux (some (a0 :: acc0)) (c :: cs) =
              (if c = btChar then (a0 :: acc0).reverse :: scanInlineAux none cs
               else if c = '\n' then scanInlineAux none cs
               else scanInlineAux (some (c :: a0 :: acc0)) cs) from rfl, if_pos hc] at hsp
          rcases List.mem_cons.mp hsp with rfl | hsp2
          · intro ch hch
            exact hst (a0 :: acc0) rfl ch (List.mem_reverse.mp hch)
          · exact ih none (by simp) sp hsp2
      · by_cases hnl : c = '\n'
        · cases acc with
          | nil =>
            rw [show scanInlineAux (some []) (c :: cs) =
                (if c = btChar then scanInlineAux (some []) cs
                 else if c = '\n' then scanInlineAux none cs
                 else scanInlineAux (some [c]) cs) from rfl, if_neg hc, if_pos hnl] at hsp
            exact ih none (by simp) sp hsp
          | cons a0 acc0 =>
            rw [show scanInlineAux (some (a0 :: acc0)) (c :: cs) =
                (if c = btChar then (a0 :: acc0).reverse :: scanInlineAux none cs
                 else if c = '\n' then scanInlineAux none cs
                 else scanInlineAux (some (c :: a0 :: acc0)) cs) from rfl, if_neg hc,
              if_pos hnl] at hsp
            exact ih none (by simp) sp hsp
        · cases acc with
          | nil =>
            rw [show scanInlineAux (some []) (c :: cs) =
                (if c = btChar then scanInlineAux (some []) cs
                 else if c = '\n' then scanInlineAux none cs
                 else scanInlineAux (some [c]) cs) from rfl, if_neg hc, if_neg hnl] at hsp
            refine ih (some [c]) ?_ sp hsp
            intro a ha ch hch
            injection ha with h0
            rw [← h0] at hch
            simp only [List.mem_singleton] at hch
            subst hch
            exact ⟨hc, hnl⟩
          | cons a0 acc0 =>
            rw [show scanInlineAux (some (a0 :: acc0)) (c :: cs) =
                (if c = btChar then (a0 :: acc0).reverse :: scanInlineAux none cs
                 else if c = '\n' then scanInlineAux none cs
                 else scanInlineAux (some (c :: a0 :: acc0)) cs) from rfl, if_neg hc,
              if_neg hnl] at hsp
            refine ih (some (c :: a0 :: acc0)) ?_ sp hsp
            intro a ha ch hch
            injection ha with h0
            rw [← h0] at hch
            rcases List.mem_cons.mp hch with rfl | hch2
            · exact ⟨hc, hnl⟩
            · exact hst (a0 :: acc0) rfl ch hch2

theorem scanInline_ok {t sp : List Char} (hsp : sp ∈ scanInline t) :
    ∀ ch ∈ sp, ch ≠ btChar ∧ ch ≠ '\n' :=
  scanInlineAux_ok t none (by simp) sp hsp

theorem mem_catl {c : List Char} :
    ∀ {L : List (List (List Char))}, c ∈ catl L → ∃ l ∈ L, c ∈ l := by
  intro L
  induction L with
  | nil => intro h; simp [catl] at h
  | cons x xs ih =>
    intro h
    rcases List.mem_append.mp h with h1 | h2
    · exact ⟨x, by simp, h1⟩
    · obtain ⟨l, hl, hc⟩ := ih h2
      exact ⟨l, by simp [hl], hc⟩

theorem head_of_allow {c : List Char}
    (h : INLINE_ALLOW.any (fun p => pfxOf p c) = true) : c.head? ≠ some '#' := by
  simp only [INLINE_ALLOW, List.map_cons, List.map_nil, List.any_cons, List.any_nil,
    Bool.or_eq_true, Bool.or_false] at h
  rcases h with h | h | h | h | h | h | h | h | h | h | h <;>
    (obtain ⟨v, rfl⟩ := pfxOf_iff.mp h; intro hc; exact absurd (Option.some.inj hc) (by decide))

/-- Every command returned by `extract_commands` is clean. -/
theorem extract_clean {t c : List Char} (hc : c ∈ extract_commands t) : cleanCmd c := by
  unfold extract_commands at hc
  rcases List.mem_append.mp hc with hblk | hinl
  · obtain ⟨l, hl, hcl⟩ := mem_catl hblk
    obtain ⟨b, hb, rfl⟩ := List.mem_map.mp hl
    unfold processBlock at hcl
    obtain ⟨hmem, hgood⟩ := List.mem_filter.mp hcl
    obtain ⟨line, hline, rfl⟩ := List.mem_map.mp hmem
    have hnt_b : hasSub b tripleBT = false :=
      scanBlocks_noTriple t.length t (le_refl _) b hb
    have hstripb := pyStrip_decomp b
    have hnt_sb : hasSub (pyStrip b) tripleBT = false := by
      cases hq : hasSub (pyStrip b) tripleBT with
      | false => rfl
      | true =>
        rw [hasSub_of_sub hstripb hq] at hnt_b
        simp at hnt_b
    obtain ⟨u, v, hline_sub⟩ := mem_splitNl_sub hline
    have hnt_line : hasSub line tripleBT = false := by
      cases hq : hasSub line tripleBT with
      | false => rfl
      | true =>
        rw [hasSub_of_sub hline_sub hq] at hnt_sb
        simp at hnt_sb
    have hstripline := pyStrip_decomp line
    refine ⟨pyStrip_idem line, ?_, ?_, ?_, ?_⟩
    · intro hnil
      rw [hnil] at hgood
      simp [goodLine] at hgood
    · intro hhash
      rcases hq : pyStrip line with _ | ⟨x, xs⟩
      · rw [hq] at hhash; simp at hhash
      · rw [hq] at hhash
        simp only [List.head?_cons, Option.some.injEq] at hhash
        unfold goodLine at hgood
        rw [hq] at hgood
        rw [show ("#".toList) = ['#'] from rfl] at hgood
        simp only [pfxOf, Bool.and_eq_true, List.isEmpty_cons, Bool.not_false,
          Bool.true_and, Bool.not_eq_true'] at hgood
        rw [hhash] at hgood
        simp [pfxOf] at hgood
    · intro hnl
      exact mem_splitNl_no_nl hline (mem_of_sub hstripline hnl)
    · cases hq : hasSub (pyStrip line) tripleBT with
      | false => rfl
      | true =>
        rw [hasSub_of_sub hstripline hq] at hnt_line
        simp at hnt_line
  · obtain ⟨sp, hsp, hrule⟩ := List.mem_filterMap.mp hinl
    unfold inlineRule at hrule
    by_cases hcond :
        ((pyStrip sp).contains ' ' && INLINE_ALLOW.any (fun p => pfxOf p (pyStrip sp))) = true
    · rw [if_pos hcond] at hrule
      injection hrule with hrule
      subst hrule
      rw [Bool.and_eq_true] at hcond
      obtain ⟨hspace, hallow⟩ := hcond
      have hok := scanInline_ok hsp
      have hsub := pyStrip_decomp sp
      refine ⟨pyStrip_idem sp, ?_, head_of_allow hallow, ?_, ?_⟩
      · intro hnil
        rw [hnil] at hspace
        simp at hspace
      · intro hnl
        exact (hok '\n' (mem_of_sub hsub hnl)).2 rfl
      · cases hq : hasSub (pyStrip sp) tripleBT with
        | false => rfl
        | true =>
          exfalso
          obtain ⟨u, v, huv⟩ := hasSub_iff.mp hq
          have hbt : btChar ∈ pyStrip sp := by
            rw [huv, show tripleBT = [btChar, btChar, btChar] from by decide]
            simp
          exact (hok btChar (mem_of_sub hsub hbt)).1 rfl
    · rw [if_neg hcond] at hrule
      simp at hrule

theorem scanInlineAux_openfence (X : List Char) :
    scanInlineAux none ("```bash\n".toList ++ X) = scanInlineAux none X := rfl

theorem scanInlineAux_close : scanInlineAux none ("\n```".toList) = [] := rfl

theorem scanInlineAux_skip {s t : List Char} (hs : ∀ ch ∈ s, ch ≠ btChar) :
    scanInlineAux none (s ++ t) = scanInlineAux none t := by
  induction s with
  | nil => rfl
  | cons a q ih =>
    have ha : a ≠ btChar := hs a (by simp)
    rw [List.cons_append]
    rw [show scanInlineAux none (a :: (q ++ t)) =
        (if a = btChar then scanInlineAux (some []) (q ++ t)
         else scanInlineAux none (q ++ t)) from rfl, if_neg ha]
    exact ih (fun ch hch => hs ch (by simp [hch]))

/-- Extraction from a re-wrapped clean command: the command is recovered as
the first (block-derived) command, and when the command contains no backtick
there is no spurious inline command after it. -/
theorem extract_wrap {c : List Char} (hstrip : pyStrip c = c) (hne : c ≠ [])
    (hhash : c.head? ≠ some '#') (hnl : '\n' ∉ c)
    (hnt : hasSub c tripleBT = false) :
    extract_commands (wrapBash c) =
      c :: (scanInline (wrapBash c)).filterMap inlineRule ∧
    ((∀ ch ∈ c, ch ≠ btChar) →
      (scanInline (wrapBash c)).filterMap inlineRule = []) := by
  have hshape : wrapBash c =
      btChar :: ("``bash\n".toList ++ ((c ++ ['\n']) ++ tripleBT ++ [])) := by
    unfold wrapBash
    rw [show ("\n```".toList) = ['\n'] ++ tripleBT from by decide]
    rw [show ("```bash\n".toList) = btChar :: "``bash\n".toList from by decide]
    simp [List.append_assoc]
  have hlastnl : (c ++ ['\n']).getLast? ≠ some btChar := by
    rw [List.getLast?_concat]
    decide
  have hsb : scanBlocks (wrapBash c) = [c ++ ['\n']] := by
    rw [hshape,
      scanBlocks_cons_close (matchOpen_pre_bash _)
        (findClose_append (hasSub_append_nl hnt) hlastnl)]
    rfl
  have hgood : goodLine c = true := by
    rcases hcc : c with _ | ⟨x, xs⟩
    · exact absurd hcc hne
    · have hx : ('#' == x) = false := by
        rw [beq_eq_false_iff_ne]
        intro hxe
        exact hhash (by rw [hcc]; simp [← hxe])
      unfold goodLine
      rw [show ("#".toList) = ['#'] from rfl]
      simp [pfxOf, hx]
  have hpb : processBlock (c ++ ['\n']) = [c] := by
    unfold processBlock
    rw [pyStrip_append_nl hstrip, splitNl_single hnl]
    simp only [List.map_cons, List.map_nil, hstrip]
    rw [List.filter_cons, if_pos hgood]
    rfl
  constructor
  · unfold extract_commands
    rw [hsb]
    simp only [List.map_cons, List.map_nil, catl, hpb]
    rfl
  · intro hbt
    have hsi : scanInline (wrapBash c) = [] := by
      have hshape2 : wrapBash c = "```bash\n".toList ++ (c ++ "\n```".toList) := by
        unfold wrapBash
        simp [List.append_assoc]
      show scanInlineAux none (wrapBash c) = []
      rw [hshape2, scanInlineAux_openfence, scanInlineAux_skip hbt, scanInlineAux_close]
    rw [hsi]
    rfl

/-- C3 counterexample: the fenced command "echo `sudo reboot` done" is
extracted from a code block, but re-wrapping it in a bash fence and
re-extracting yields that command followed by the spurious inline command
"sudo reboot" — not the singleton required by the claim. -/
theorem extract_roundtrip_cex :
    ("echo `sudo reboot` done".toList ∈
        extract_commands ("```\necho `sudo reboot` done\n```".toList)) ∧
    extract_commands (wrapBash ("echo `sudo reboot` done".toList)) ≠
      ["echo `sudo reboot` done".toList] ∧
    extract_commands (wrapBash ("echo `sudo reboot` done".toList)) =
      ["echo `sudo reboot` done".toList, "sudo reboot".toList] := by
  refine ⟨by decide, by decide, by decide⟩

/-- C3 (amended): for every text `t` and command `c` extracted from `t`,
re-extracting from the re-wrapped fence yields `c` as its first command; when
`c` contains no backtick the result is exactly `[c]`. -/
theorem extract_roundtrip_amended (t c : List Char) (hc : c ∈ extract_commands t) :
    (extract_commands (wrapBash c)).head? = some c ∧
    ((∀ ch ∈ c, ch ≠ btChar) → extract_commands (wrapBash c) = [c]) := by
  obtain ⟨hstrip, hne, hhash, hnl, hnt⟩ := extract_clean hc
  obtain ⟨h1, h2⟩ := extract_wrap hstrip hne hhash hnl hnt
  refine ⟨by rw [h1]; rfl, ?_⟩
  intro hbt
  rw [h1, h2 hbt]

/-- Witness for C3 (amended) at the command "ls -la" extracted from a bash
fence. -/
theorem extract_roundtrip_amended_witness :
    ("ls -la".toList ∈ extract_commands ("```bash\nls -la\n```".toList)) ∧
    (extract_commands (wrapBash ("ls -la".toList))).head? = some ("ls -la".toList) ∧
    extract_commands (wrapBash ("ls -la".toList)) = ["ls -la".toList] :=
  ⟨by decide,
    (extract_roundtrip_amended ("```bash\nls -la\n```".toList) ("ls -la".toList)
      (by decide)).1,
    (extract_roundtrip_amended ("```bash\nls -la\n```".toList) ("ls -la".toList)
      (by decide)).2 (by decide)⟩

/-! ### Inline keep rule (claim C8) -/

/-- C8: an inline span found in the text contributes its trimmed content to
the inline stage of `extract_commands` exactly when the trimmed content
contains a space and starts with one of the allow-listed prefixes; the inline
stage is precisely the tail of `extract_commands` after the block commands. -/
theorem inline_keep_iff (t sp : List Char) (hsp : sp ∈ scanInline t) :
    (pyStrip sp ∈ (scanInline t).filterMap inlineRule ↔
      ' ' ∈ pyStrip sp ∧ ∃ p ∈ INLINE_ALLOW, pfxOf p (pyStrip sp) = true) ∧
    extract_commands t =
      catl ((scanBlocks t).map processBlock) ++ (scanInline t).filterMap inlineRule := by
  refine ⟨⟨?_, ?_⟩, rfl⟩
  · intro hmem
    obtain ⟨sp0, hsp0, hrule⟩ := List.mem_filterMap.mp hmem
    unfold inlineRule at hrule
    by_cases hcond :
        ((pyStrip sp0).contains ' ' && INLINE_ALLOW.any (fun p => pfxOf p (pyStrip sp0))) = true
    · rw [if_pos hcond] at hrule
      injection hrule with hrule
      rw [Bool.and_eq_true] at hcond
      rw [← hrule]
      exact ⟨by simpa using hcond.1, List.any_eq_true.mp hcond.2⟩
    · rw [if_neg hcond] at hrule
      simp at hrule
  · rintro ⟨hspace, p, hpmem, hpfx⟩
    refine List.mem_filterMap.mpr ⟨sp, hsp, ?_⟩
    unfold inlineRule
    rw [if_pos]
    rw [Bool.and_eq_true]
    exact ⟨by simpa using hspace, List.any_eq_true.mpr ⟨p, hpmem, hpfx⟩⟩

/-- Witness for C8 at the span "sudo reboot" inside a sentence. -/
theorem inline_keep_iff_witness :
    ("sudo reboot".toList ∈ scanInline ("run `sudo reboot` please".toList)) ∧
    (pyStrip ("sudo reboot".toList) ∈
        (scanInline ("run `sudo reboot` please".toList)).filterMap inlineRule ↔
      ' ' ∈ pyStrip ("sudo reboot".toList) ∧
        ∃ p ∈ INLINE_ALLOW, pfxOf p (pyStrip ("sudo reboot".toList)) = true) :=
  ⟨by decide,
    (inline_keep_iff ("run `sudo reboot` please".toList) ("sudo reboot".toList)
      (by decide)).1⟩

/-- C4 counterexample: with a malformed config file `get_backend` raises
(`json.load` has no surrounding try/except), so it does not return a backend
name — a bad config file is fatal to the run, refuting the claim. -/
theorem get_backend_total_cex :
    pyOk (get_backend (ConfigFile.present ConfigContent.malformed)) = false ∧
    get_backend (ConfigFile.present ConfigContent.malformed) =
      PyResult.raised "JSONDecodeError" := by
  refine ⟨rfl, rfl⟩

/-- C4 (amended): `get_backend` returns a backend name without raising exactly
when the config file is absent or is a readable JSON object; an absent file
yields the default "ollama", and a readable object yields its "backend" entry
with default "ollama".  Unreadable or malformed content raises, which is
fatal to the run. -/
theorem get_backend_amended :
    (∀ cf : ConfigFile, pyOk (get_backend cf) = true ↔
      cf = ConfigFile.absent ∨
        ∃ entries, cf = ConfigFile.present (ConfigContent.jsonObj entries)) ∧
    get_backend ConfigFile.absent = PyResult.ok "ollama" ∧
    (∀ entries, get_backend (ConfigFile.present (ConfigContent.jsonObj entries)) =
      PyResult.ok (dictGet entries "backend" "ollama")) := by
  refine ⟨?_, rfl, fun _ => rfl⟩
  intro cf
  cases cf with
  | absent => simp [get_backend, pyOk]
  | unreadable => simp [get_backend, pyOk]
  | present content =>
    cases content with
    | malformed => simp [get_backend, pyOk]
    | jsonNonObj => simp [get_backend, pyOk]
    | jsonObj entries => simp [get_backend, pyOk]

theorem classify_cases (c : List Char) :
    classify_command c = "dangerous" ∨ classify_command c = "sudo" ∨
    classify_command c = "safe" ∨ classify_command c = "unknown" := by
  unfold classify_command
  dsimp only
  split_ifs <;> simp

/-- C5: whenever the user rejects at the branch taken by the gate,
`handle_command_execution` returns `False` and `execute_command` is never
invoked for that command (the invocation trace is empty). -/
theorem gate_reject_no_exec (env : GateEnv) (command : String) (history : List String)
    (system_info : String) (hrej : userRejects env command) :
    handle_command_execution env command history system_info = (false, []) := by
  unfold handle_command_execution
  rcases hrej with ⟨hcls, hcf⟩ | ⟨hcls, hcf⟩ | ⟨hcls, hch⟩ | ⟨hcls, hcf⟩
  · rw [hcls, hcf]
    simp
  · rw [hcls, hcf]
    simp
  · rcases hch with ⟨h1, h2⟩ | ⟨h1, h2⟩ | ⟨h1, h2, h3⟩
    · rw [hcls, h1, h2]
      simp
    · rw [hcls, h1, h2]
      simp
    · rw [hcls, h1, h2, h3]
      simp
  · rw [hcls, hcf]
    simp

/-- Witness for C5: cancelling the dangerous three-way choice on "rm -rf /"
leaves the command unexecuted. -/
theorem gate_reject_no_exec_witness :
    userRejects
      (GateEnv.mk (fun _ => false) (fun _ _ => "❌ Cancel") (fun _ _ _ => "")
        (fun _ => RunOutcome.spawnFailure)) "rm -rf /" ∧
    handle_command_execution
      (GateEnv.mk (fun _ => false) (fun _ _ => "❌ Cancel") (fun _ _ _ => "")
        (fun _ => RunOutcome.spawnFailure)) "rm -rf /" [] "" = (false, []) :=
  ⟨Or.inr (Or.inr (Or.inl ⟨by decide, Or.inl ⟨by decide, by decide⟩⟩)),
    gate_reject_no_exec _ _ [] ""
      (Or.inr (Or.inr (Or.inl ⟨by decide, Or.inl ⟨by decide, by decide⟩⟩)))⟩

/-- C6 counterexample: for the command "ls -la", a run in which the user
declines the confirmation and a run in which the user approves but the
subprocess spawn fails produce the same boolean return value `False` from
`handle_command_execution` — the return value does not distinguish
UserDeclined from ExecutionError, refuting the claim. -/
theorem gate_decline_vs_error_cex :
    (handle_command_execution
      (GateEnv.mk (fun _ => false) (fun _ _ => "") (fun _ _ _ => "")
        (fun _ => RunOutcome.spawnFailure)) "ls -la" [] "").fst = false ∧
    (handle_command_execution
      (GateEnv.mk (fun _ => true) (fun _ _ => "") (fun _ _ _ => "")
        (fun _ => RunOutcome.spawnFailure)) "ls -la" [] "").fst = false := by
  refine ⟨by decide, by decide⟩

/-- C6 (amended): for any command and any risk tier, a declined run and an
approved-but-failed run both return `False`; they are distinguishable only in
whether `execute_command` was invoked (and in the printed logs), not in the
gate's boolean return value.  Approval at the dangerous tier means the chosen
option is one of the two proceed options (explain-then-confirm or
proceed-anyway); every confirmation is answered yes. -/
theorem gate_decline_vs_error_amended (envD envF : GateEnv) (command : String)
    (history : List String) (system_info : String)
    (hD : ∀ m, envD.confirm m = false)
    (hF : ∀ m, envF.confirm m = true)
    (hfail : envF.run command = RunOutcome.spawnFailure)
    (hch : classify_command command.toList = "dangerous" →
      pfxOf ("🚨".toList) (envF.choose dangerOptions (dangerHeader command)).toList = true ∨
      pfxOf ("🔒".toList) (envF.choose dangerOptions (dangerHeader command)).toList = true) :
    handle_command_execution envD command history system_info = (false, []) ∧
    handle_command_execution envF command history system_info = (false, [command]) := by
  have hexecF : execute_command envF command = false := by
    unfold execute_command
    rw [hfail]
  constructor
  · refine gate_reject_no_exec envD command history system_info ?_
    rcases classify_cases command.toList with hc | hc | hc | hc
    · refine Or.inr (Or.inr (Or.inl ⟨hc, ?_⟩))
      cases hq1 : pfxOf ("🚨".toList)
          (envD.choose dangerOptions (dangerHeader command)).toList with
      | true => exact Or.inr (Or.inl ⟨rfl, hD riskConfirmMsg⟩)
      | false =>
        cases hq2 : pfxOf ("🔒".toList)
            (envD.choose dangerOptions (dangerHeader command)).toList with
        | true => exact Or.inr (Or.inr ⟨rfl, rfl, hD sureMsg⟩)
        | false => exact Or.inl ⟨rfl, rfl⟩
    · exact Or.inr (Or.inl ⟨hc, hD (sudoMsg command)⟩)
    · exact Or.inl ⟨hc, hD (safeMsg command)⟩
    · exact Or.inr (Or.inr (Or.inr ⟨hc, hD (unknownMsg command)⟩))
  · unfold handle_command_execution
    rcases classify_cases command.toList with hc | hc | hc | hc
    · by_cases hq1 : pfxOf ("🚨".toList)
          (envF.choose dangerOptions (dangerHeader command)).toList = true
      · rw [hc, hq1, hF riskConfirmMsg, hexecF]
        simp
      · have hq1f : pfxOf ("🚨".toList)
            (envF.choose dangerOptions (dangerHeader command)).toList = false := by
          simpa using hq1
        have hq2 : pfxOf ("🔒".toList)
            (envF.choose dangerOptions (dangerHeader command)).toList = true :=
          (hch hc).resolve_left hq1
        rw [hc, hq1f, hq2, hF sureMsg, hexecF]
        simp
    · rw [hc, hF (sudoMsg command), hexecF]
      simp
    · rw [hc, hF (safeMsg command), hexecF]
      simp
    · rw [hc, hF (unknownMsg command), hexecF]
      simp

/-- Witness for C6 (amended) at the dangerous command "rm -rf /": the
declining user cancels the three-way choice, the approving user picks
proceed-anyway and confirms, but the subprocess fails to spawn; both runs
return `False`, differing only in the invocation trace. -/
theorem gate_decline_vs_error_amended_witness :
    classify_command ("rm -rf /".toList) = "dangerous" ∧
    handle_command_execution
      (GateEnv.mk (fun _ => false) (fun _ _ => "❌ Cancel") (fun _ _ _ => "")
        (fun _ => RunOutcome.spawnFailure)) "rm -rf /" [] "" = (false, []) ∧
    handle_command_execution
      (GateEnv.mk (fun _ => true)
        (fun _ _ => "🔒 I understand the risks, proceed anyway") (fun _ _ _ => "")
        (fun _ => RunOutcome.spawnFailure)) "rm -rf /" [] "" = (false, ["rm -rf /"]) :=
  ⟨by decide,
    (gate_decline_vs_error_amended
      (GateEnv.mk (fun _ => false) (fun _ _ => "❌ Cancel") (fun _ _ _ => "")
        (fun _ => RunOutcome.spawnFailure))
      (GateEnv.mk (fun _ => true)
        (fun _ _ => "🔒 I understand the risks, proceed anyway") (fun _ _ _ => "")
        (fun _ => RunOutcome.spawnFailure))
      "rm -rf /" [] "" (fun _ => rfl) (fun _ => rfl) rfl
      (fun _ => Or.inr (by decide))).1,
    (gate_decline_vs_error_amended
      (GateEnv.mk (fun _ => false) (fun _ _ => "❌ Cancel") (fun _ _ _ => "")
        (fun _ => RunOutcome.spawnFailure))
      (GateEnv.mk (fun _ => true)
        (fun _ _ => "🔒 I understand the risks, proceed anyway") (fun _ _ _ => "")
        (fun _ => RunOutcome.spawnFailure))
      "rm -rf /" [] "" (fun _ => rfl) (fun _ => rfl) rfl
      (fun _ => Or.inr (by decide))).2⟩

/-- C9: every backend embeds exactly the last 10 history entries (the final
segment of the history, of length `min |history| 10`) together with the
system info into the prompt sent to the model. -/
theorem backend_prompt_last10 (b : Backend) (prompt : String) (history : List String)
    (system_info : String) :
    sentPrompt b prompt history system_info =
      "Terminal history: " ++ String.intercalate ", " (lastN 10 history) ++
        "\n\nSystem: " ++ system_info ++ "\n\nQuestion: " ++ prompt ∧
    (∃ dropped, history = dropped ++ lastN 10 history) ∧
    (lastN 10 history).length = min history.length 10 := by
  refine ⟨?_, ⟨history.take (history.length - 10), ?_⟩, ?_⟩
  · cases b <;> rfl
  · exact (List.take_append_drop _ _).symm
  · unfold lastN
    rw [List.length_drop]
    omega

/-- Witness for C10 at "catastrophe --purge-all". -/
theorem classify_cat_no_boundary_witness :
    pfxOf ("cat".toList) (lowerStrip ("catastrophe --purge-all".toList)) = true ∧
    DANGEROUS_COMMANDS.any
        (fun danger => hasSub (lowerStrip ("catastrophe --purge-all".toList)) danger) = false ∧
    classify_command ("catastrophe --purge-all".toList) = "safe" :=
  ⟨by decide, by decide, classify_cat_no_boundary _ (by decide) (by decide)⟩
